import Mathlib

/-!
Verification development for `bot_util/misc/api_callers.py` of the MifBot
repository.

The first part embeds the rate-limited task queue `WovAPICaller`
(`__init__` / `add_to_queue` / `process_queue`) as a labelled transition
system over an explicit state.  Submitters interleave with the single
worker coroutine; the worker's loop body

    func, args, future = await self.queue.get()
    try:
        result = await func(*args)
        future.set_result(result)
    except Exception as e:
        future.set_exception(e)
    self.queue.task_done()
    await asyncio.sleep(1)

is split at its await points into three worker steps (dequeue / execute-
and-resolve / cooldown sleep).  A submitted operation is abstracted by its
observable behaviour: the outcome `await func(*args)` produces (a normal
value or a raised exception, `Except ε α`) and the number of time units
the awaited execution takes.  The state carries history variables
(`resolved`, `events`, `submitted`) that record what happened, so that
ordering, throttling, single-execution and exactly-once resolution can be
stated; they do not influence the transitions.

The second part embeds the HTTP wrapper methods (`WovApiCall.*`,
`LichessApiCall.get_user_performance`, `LichessApiCall.export_by_player`)
as pure functions of the response they receive.
-/

namespace MifBot

/-- One queued unit of work, `(func, args, future)` as placed on
`self.queue` by `add_to_queue`.  `id` identifies the `asyncio.Future`
created for it (futures are numbered in creation order); `outcome` is
what `await func(*args)` would produce (`Except.ok` for a returned value,
`Except.error` for a raised exception); `duration` is how many time units
that awaited execution takes. -/
structure QTask (ε α : Type) where
  id : Nat
  outcome : Except ε α
  duration : Nat

/-- Where the worker coroutine of `process_queue` is between scheduler
points: suspended in `await self.queue.get()` (`idle`), executing
`await func(*args)` for a dequeued task (`running`), or in the
`await asyncio.sleep(1)` cooldown (`cooling`). -/
inductive Phase (ε α : Type) where
  | idle
  | running (t : QTask ε α)
  | cooling

/-- History events marking the start and the end of the execution of a
task's operation by the worker. -/
inductive QEvent where
  | begins (i : Nat)
  | ends (i : Nat)

/-- Record of one future resolution: which future, at what time, and with
which value (`future.set_result` / `future.set_exception`). -/
structure Resolution (ε α : Type) where
  id : Nat
  time : Nat
  value : Except ε α

/-- State of one `WovAPICaller` instance together with history variables.
`queue` is the content of `self.queue` (FIFO, head = next to be taken),
`phase` the worker coroutine's position, `resolved` the list of future
resolutions in the order they happened, `events` the begin/end execution
history, `submitted` all tasks ever passed to `add_to_queue` in
submission order, `time` the elapsed time, and `nextId` the number of
futures created so far. -/
structure WovAPICaller (ε α : Type) where
  queue : List (QTask ε α)
  phase : Phase ε α
  resolved : List (Resolution ε α)
  events : List QEvent
  submitted : List (QTask ε α)
  time : Nat
  nextId : Nat

/-- State produced by `__init__`: empty queue, worker suspended at
`await self.queue.get()`, nothing submitted or resolved. -/
def initState (ε α : Type) : WovAPICaller ε α :=
  ⟨[], Phase.idle, [], [], [], 0, 0⟩

/-- Embedding of `add_to_queue`: create a fresh `asyncio.Future`, put
`(func, args, future)` at the tail of the unbounded queue (for an
unbounded `asyncio.Queue`, `put` never blocks and never fails), and
return the future.  Returns the new state and the id of the returned
future. -/
def add_to_queue (s : WovAPICaller ε α) (o : Except ε α) (d : Nat) :
    WovAPICaller ε α × Nat :=
  let t : QTask ε α := ⟨s.nextId, o, d⟩
  ({ s with
      queue := s.queue ++ [t]
      submitted := s.submitted ++ [t]
      nextId := s.nextId + 1 },
   s.nextId)

/-- Worker step 1 of `process_queue`'s loop body: `await self.queue.get()`
returns the head task; the worker begins executing its operation. -/
def dequeueStep (s : WovAPICaller ε α) (t : QTask ε α)
    (q : List (QTask ε α)) : WovAPICaller ε α :=
  { s with
      queue := q
      phase := Phase.running t
      events := s.events ++ [QEvent.begins t.id] }

/-- Worker step 2: `await func(*args)` finishes after `t.duration` time
units and the `try`/`except` resolves the task's future — with the
returned value via `future.set_result` on normal return, or with the
raised exception via `future.set_exception`.  In both cases the exception
is captured and the loop continues into the cooldown
(`self.queue.task_done()` has no observable effect here: `queue.join` is
never used). -/
def finishStep (s : WovAPICaller ε α) (t : QTask ε α) : WovAPICaller ε α :=
  { s with
      phase := Phase.cooling
      time := s.time + t.duration
      resolved := s.resolved ++ [⟨t.id, s.time + t.duration, t.outcome⟩]
      events := s.events ++ [QEvent.ends t.id] }

/-- Worker step 3: `await asyncio.sleep(1)` — one time unit of cooldown,
performed unconditionally after every task, then back to
`await self.queue.get()`. -/
def sleepStep (s : WovAPICaller ε α) : WovAPICaller ε α :=
  { s with phase := Phase.idle, time := s.time + 1 }

/-- Action labels: a submitter calling `add_to_queue` (with the submitted
operation's behaviour), or the single worker coroutine taking its next
enabled step. -/
inductive Act (ε α : Type) where
  | submit (o : Except ε α) (d : Nat)
  | work

/-- Labelled transition relation of the system: submitters may enqueue at
any time; the worker's three steps are enabled exactly when the coroutine
is at the corresponding await point (`queue.get` only returns when the
queue is non-empty). -/
inductive Step {ε α : Type} :
    Act ε α → WovAPICaller ε α → WovAPICaller ε α → Prop where
  | submit (s : WovAPICaller ε α) (o : Except ε α) (d : Nat) :
      Step (Act.submit o d) s (add_to_queue s o d).1
  | dequeue (s : WovAPICaller ε α) (t : QTask ε α) (q : List (QTask ε α)) :
      s.phase = Phase.idle → s.queue = t :: q →
      Step Act.work s (dequeueStep s t q)
  | execTask (s : WovAPICaller ε α) (t : QTask ε α) :
      s.phase = Phase.running t → Step Act.work s (finishStep s t)
  | sleep (s : WovAPICaller ε α) :
      s.phase = Phase.cooling → Step Act.work s (sleepStep s)

/-- Reachability from the freshly constructed caller by any interleaving
of submissions and worker steps. -/
def Reachable {ε α : Type} (s : WovAPICaller ε α) : Prop :=
  Relation.ReflTransGen (fun a b => ∃ l, Step l a b) (initState ε α) s

/-- Net number of currently open executions described by an event list
(+1 for each begin, -1 for each end). -/
def evDelta : Int → QEvent → Int
  | n, QEvent.begins _ => n + 1
  | n, QEvent.ends _ => n - 1

/-- Number of executions open at the end of the event history. -/
def evOpen (l : List QEvent) : Int := l.foldl evDelta 0

/-- Number of executions the worker phase has open (1 while running). -/
def phaseOpen : Phase ε α → Int
  | Phase.running _ => 1
  | _ => 0

/-- Id of the task the worker is currently executing, as a list. -/
def phaseIds : Phase ε α → List Nat
  | Phase.running t => [t.id]
  | _ => []

theorem evOpen_concat (l : List QEvent) (e : QEvent) :
    evOpen (l ++ [e]) = evDelta (evOpen l) e := by
  simp [evOpen, List.foldl_append]

theorem evBound_concat {l : List QEvent} {e : QEvent}
    (h : ∀ n, 0 ≤ evOpen (l.take n) ∧ evOpen (l.take n) ≤ 1)
    (h2 : 0 ≤ evOpen (l ++ [e]) ∧ evOpen (l ++ [e]) ≤ 1) :
    ∀ n, 0 ≤ evOpen ((l ++ [e]).take n) ∧ evOpen ((l ++ [e]).take n) ≤ 1 := by
  intro n
  rcases le_or_lt n l.length with hn | hn
  · rw [List.take_append_of_le_length hn]
    exact h n
  · rw [List.take_of_length_le (by simp; omega)]
    exact h2

theorem pairwise_snoc {r : Nat → Nat → Prop} {l : List Nat} {a : Nat}
    (h : List.Pairwise r l) (h2 : ∀ x ∈ l, r x a) :
    List.Pairwise r (l ++ [a]) := by
  rw [List.pairwise_append]
  refine ⟨h, List.pairwise_singleton _ _, ?_⟩
  intro x hx y hy
  simp only [List.mem_singleton] at hy
  subst hy
  exact h2 x hx

/-- Inductive invariant of the transition system.  The id-ordering fields
say that future ids strictly increase along resolved history, then the
running task, then the queue, and stay below `nextId`; the time fields
say consecutive resolutions are at least one time unit apart and relate
the last resolution to the clock and the worker phase; the event fields
say the begin/end history matches the phase and never has two open
executions; `leftToDo` locates every submitted task. -/
structure Inv (s : WovAPICaller ε α) : Prop where
  subIds : s.submitted.map QTask.id = List.range s.nextId
  queueSub : ∀ t ∈ s.queue, t ∈ s.submitted
  runSub : ∀ t, s.phase = Phase.running t → t ∈ s.submitted
  resSub : ∀ r ∈ s.resolved, ∃ t ∈ s.submitted, t.id = r.id ∧ t.outcome = r.value
  idRes : List.Pairwise (· < ·) (s.resolved.map Resolution.id)
  idQueue : List.Pairwise (· < ·) (s.queue.map QTask.id)
  idResRun : ∀ r ∈ s.resolved, ∀ t, s.phase = Phase.running t → r.id < t.id
  idResQueue : ∀ r ∈ s.resolved, ∀ t ∈ s.queue, r.id < t.id
  idRunQueue : ∀ t, s.phase = Phase.running t → ∀ u ∈ s.queue, t.id < u.id
  idResNext : ∀ r ∈ s.resolved, r.id < s.nextId
  idRunNext : ∀ t, s.phase = Phase.running t → t.id < s.nextId
  idQueueNext : ∀ t ∈ s.queue, t.id < s.nextId
  timeGap : List.Pairwise (fun a b => a + 1 ≤ b) (s.resolved.map Resolution.time)
  timeLe : ∀ r ∈ s.resolved, r.time ≤ s.time
  coolLast : s.phase = Phase.cooling →
    (s.resolved.map Resolution.time).getLast? = some s.time
  gapDone : s.phase ≠ Phase.cooling → ∀ r ∈ s.resolved, r.time + 1 ≤ s.time
  evCount : evOpen s.events = phaseOpen s.phase
  evBound : ∀ n, 0 ≤ evOpen (s.events.take n) ∧ evOpen (s.events.take n) ≤ 1
  leftToDo : ∀ t ∈ s.submitted,
    (∃ r ∈ s.resolved, r.id = t.id) ∨ t ∈ s.queue ∨ s.phase = Phase.running t

theorem inv_init (ε α : Type) : Inv (initState ε α) := by
  constructor <;> simp [initState, phaseIds, phaseOpen, evOpen, evDelta]

theorem inv_submit {s : WovAPICaller ε α} (o : Except ε α) (d : Nat)
    (hI : Inv s) : Inv (add_to_queue s o d).1 := by
  refine ⟨?_, ?_, ?_, ?_, ?_, ?_, ?_, ?_, ?_, ?_, ?_, ?_, ?_, ?_, ?_, ?_, ?_, ?_, ?_⟩
  · simp [add_to_queue, hI.subIds, List.range_succ]
  · intro u hu
    simp only [add_to_queue, List.mem_append, List.mem_singleton] at hu ⊢
    rcases hu with hu | hu
    · exact Or.inl (hI.queueSub u hu)
    · exact Or.inr hu
  · intro u hu
    simp only [add_to_queue] at hu
    simp only [add_to_queue, List.mem_append, List.mem_singleton]
    exact Or.inl (hI.runSub u hu)
  · intro r hr
    simp only [add_to_queue] at hr
    obtain ⟨u, hu, h⟩ := hI.resSub r hr
    exact ⟨u, by simp only [add_to_queue, List.mem_append]; exact Or.inl hu, h⟩
  · simpa [add_to_queue] using hI.idRes
  · simp only [add_to_queue, List.map_append, List.map_cons, List.map_nil]
    refine pairwise_snoc hI.idQueue ?_
    intro x hx
    obtain ⟨u, hu, rfl⟩ := List.mem_map.mp hx
    exact hI.idQueueNext u hu
  · intro r hr u hu
    simp only [add_to_queue] at hr hu
    exact hI.idResRun r hr u hu
  · intro r hr u hu
    simp only [add_to_queue, List.mem_append, List.mem_singleton] at hr hu
    rcases hu with hu | hu
    · exact hI.idResQueue r hr u hu
    · subst hu
      exact hI.idResNext r hr
  · intro u hu v hv
    simp only [add_to_queue, List.mem_append, List.mem_singleton] at hu hv
    rcases hv with hv | hv
    · exact hI.idRunQueue u hu v hv
    · subst hv
      exact hI.idRunNext u hu
  · intro r hr
    simp only [add_to_queue] at hr ⊢
    exact Nat.lt_succ_of_lt (hI.idResNext r hr)
  · intro u hu
    simp only [add_to_queue] at hu ⊢
    exact Nat.lt_succ_of_lt (hI.idRunNext u hu)
  · intro u hu
    simp only [add_to_queue, List.mem_append, List.mem_singleton] at hu ⊢
    rcases hu with hu | hu
    · exact Nat.lt_succ_of_lt (hI.idQueueNext u hu)
    · subst hu
      exact Nat.lt_succ_self _
  · simpa [add_to_queue] using hI.timeGap
  · intro r hr
    simp only [add_to_queue] at hr ⊢
    exact hI.timeLe r hr
  · intro h
    simp only [add_to_queue] at h ⊢
    exact hI.coolLast h
  · intro h r hr
    simp only [add_to_queue] at h hr ⊢
    exact hI.gapDone h r hr
  · simpa [add_to_queue] using hI.evCount
  · simpa [add_to_queue] using hI.evBound
  · intro u hu
    simp only [add_to_queue, List.mem_append, List.mem_singleton] at hu ⊢
    rcases hu with hu | hu
    · rcases hI.leftToDo u hu with h | h | h
      · exact Or.inl h
      · exact Or.inr (Or.inl (Or.inl h))
      · exact Or.inr (Or.inr h)
    · exact Or.inr (Or.inl (Or.inr hu))

theorem inv_dequeue {s : WovAPICaller ε α} {t : QTask ε α}
    {q : List (QTask ε α)} (hp : s.phase = Phase.idle) (hq : s.queue = t :: q)
    (hI : Inv s) : Inv (dequeueStep s t q) := by
  have htq : t ∈ s.queue := by rw [hq]; exact List.mem_cons_self t q
  refine ⟨?_, ?_, ?_, ?_, ?_, ?_, ?_, ?_, ?_, ?_, ?_, ?_, ?_, ?_, ?_, ?_, ?_, ?_, ?_⟩
  · simpa [dequeueStep] using hI.subIds
  · intro u hu
    simp only [dequeueStep] at hu ⊢
    exact hI.queueSub u (by rw [hq]; exact List.mem_cons_of_mem t hu)
  · intro u hu
    simp only [dequeueStep, Phase.running.injEq] at hu
    subst hu
    simp only [dequeueStep]
    exact hI.queueSub t htq
  · intro r hr
    simp only [dequeueStep] at hr ⊢
    exact hI.resSub r hr
  · simpa [dequeueStep] using hI.idRes
  · have h := hI.idQueue
    rw [hq] at h
    simpa [dequeueStep] using (List.pairwise_cons.mp h).2
  · intro r hr u hu
    simp only [dequeueStep, Phase.running.injEq] at hr hu
    subst hu
    exact hI.idResQueue r hr t htq
  · intro r hr u hu
    simp only [dequeueStep] at hr hu
    exact hI.idResQueue r hr u (by rw [hq]; exact List.mem_cons_of_mem t hu)
  · intro u hu v hv
    simp only [dequeueStep, Phase.running.injEq] at hu hv
    subst hu
    have h := hI.idQueue
    rw [hq] at h
    exact (List.pairwise_cons.mp h).1 v.id (List.mem_map_of_mem QTask.id hv)
  · intro r hr
    simp only [dequeueStep] at hr ⊢
    exact hI.idResNext r hr
  · intro u hu
    simp only [dequeueStep, Phase.running.injEq] at hu
    subst hu
    simp only [dequeueStep]
    exact hI.idQueueNext t htq
  · intro u hu
    simp only [dequeueStep] at hu ⊢
    exact hI.idQueueNext u (by rw [hq]; exact List.mem_cons_of_mem t hu)
  · simpa [dequeueStep] using hI.timeGap
  · intro r hr
    simp only [dequeueStep] at hr ⊢
    exact hI.timeLe r hr
  · intro h
    simp only [dequeueStep] at h
    exact Phase.noConfusion h
  · intro _ r hr
    simp only [dequeueStep] at hr ⊢
    exact hI.gapDone (by rw [hp]; simp) r hr
  · simp only [dequeueStep]
    rw [evOpen_concat, hI.evCount, hp]
    simp [phaseOpen, evDelta]
  · simp only [dequeueStep]
    refine evBound_concat hI.evBound ?_
    rw [evOpen_concat, hI.evCount, hp]
    simp [phaseOpen, evDelta]
  · intro u hu
    simp only [dequeueStep] at hu ⊢
    rcases hI.leftToDo u hu with h | h | h
    · exact Or.inl h
    · rw [hq] at h
      rcases List.mem_cons.mp h with h | h
      · subst h
        exact Or.inr (Or.inr rfl)
      · exact Or.inr (Or.inl h)
    · rw [hp] at h
      simp at h

theorem inv_finish {s : WovAPICaller ε α} {t : QTask ε α}
    (hp : s.phase = Phase.running t) (hI : Inv s) : Inv (finishStep s t) := by
  have hts : t ∈ s.submitted := hI.runSub t hp
  have hnc : s.phase ≠ Phase.cooling := by rw [hp]; simp
  refine ⟨?_, ?_, ?_, ?_, ?_, ?_, ?_, ?_, ?_, ?_, ?_, ?_, ?_, ?_, ?_, ?_, ?_, ?_, ?_⟩
  · simpa [finishStep] using hI.subIds
  · intro u hu
    simp only [finishStep] at hu ⊢
    exact hI.queueSub u hu
  · intro u hu
    simp only [finishStep] at hu
    exact Phase.noConfusion hu
  · intro r hr
    simp only [finishStep, List.mem_append, List.mem_singleton] at hr
    rcases hr with hr | hr
    · obtain ⟨u, hu, h⟩ := hI.resSub r hr
      exact ⟨u, by simpa [finishStep] using hu, h⟩
    · subst hr
      exact ⟨t, by simpa [finishStep] using hts, rfl, rfl⟩
  · simp only [finishStep, List.map_append, List.map_cons, List.map_nil]
    refine pairwise_snoc hI.idRes ?_
    intro x hx
    obtain ⟨r, hr, rfl⟩ := List.mem_map.mp hx
    exact hI.idResRun r hr t hp
  · simpa [finishStep] using hI.idQueue
  · intro r hr u hu
    simp only [finishStep] at hu
    exact Phase.noConfusion hu
  · intro r hr u hu
    simp only [finishStep, List.mem_append, List.mem_singleton] at hr hu
    rcases hr with hr | hr
    · exact hI.idResQueue r hr u hu
    · subst hr
      exact hI.idRunQueue t hp u hu
  · intro u hu
    simp only [finishStep] at hu
    exact Phase.noConfusion hu
  · intro r hr
    simp only [finishStep, List.mem_append, List.mem_singleton] at hr ⊢
    rcases hr with hr | hr
    · exact hI.idResNext r hr
    · subst hr
      exact hI.idRunNext t hp
  · intro u hu
    simp only [finishStep] at hu
    exact Phase.noConfusion hu
  · intro u hu
    simp only [finishStep] at hu ⊢
    exact hI.idQueueNext u hu
  · simp only [finishStep, List.map_append, List.map_cons, List.map_nil]
    refine pairwise_snoc hI.timeGap ?_
    intro x hx
    obtain ⟨r, hr, rfl⟩ := List.mem_map.mp hx
    have := hI.gapDone hnc r hr
    omega
  · intro r hr
    simp only [finishStep, List.mem_append, List.mem_singleton] at hr ⊢
    rcases hr with hr | hr
    · have := hI.timeLe r hr
      omega
    · subst hr
      exact le_refl _
  · intro _
    simp only [finishStep, List.map_append, List.map_cons, List.map_nil]
    exact List.getLast?_concat _
  · intro h
    simp only [finishStep] at h
    exact absurd rfl h
  · simp only [finishStep]
    rw [evOpen_concat, hI.evCount, hp]
    simp [phaseOpen, evDelta]
  · simp only [finishStep]
    refine evBound_concat hI.evBound ?_
    rw [evOpen_concat, hI.evCount, hp]
    simp [phaseOpen, evDelta]
  · intro u hu
    simp only [finishStep, List.mem_append, List.mem_singleton] at hu ⊢
    rcases hI.leftToDo u hu with h | h | h
    · obtain ⟨r, hr, h2⟩ := h
      exact Or.inl ⟨r, Or.inl hr, h2⟩
    · exact Or.inr (Or.inl h)
    · rw [hp] at h
      obtain rfl : t = u := by
        simpa [Phase.running.injEq] using h
      exact Or.inl ⟨⟨t.id, s.time + t.duration, t.outcome⟩, Or.inr rfl, rfl⟩

theorem inv_sleep {s : WovAPICaller ε α} (hp : s.phase = Phase.cooling)
    (hI : Inv s) : Inv (sleepStep s) := by
  refine ⟨?_, ?_, ?_, ?_, ?_, ?_, ?_, ?_, ?_, ?_, ?_, ?_, ?_, ?_, ?_, ?_, ?_, ?_, ?_⟩
  · simpa [sleepStep] using hI.subIds
  · intro u hu
    simp only [sleepStep] at hu ⊢
    exact hI.queueSub u hu
  · intro u hu
    simp only [sleepStep] at hu
    exact Phase.noConfusion hu
  · intro r hr
    simp only [sleepStep] at hr ⊢
    exact hI.resSub r hr
  · simpa [sleepStep] using hI.idRes
  · simpa [sleepStep] using hI.idQueue
  · intro r hr u hu
    simp only [sleepStep] at hu
    exact Phase.noConfusion hu
  · intro r hr u hu
    simp only [sleepStep] at hr hu
    exact hI.idResQueue r hr u hu
  · intro u hu
    simp only [sleepStep] at hu
    exact Phase.noConfusion hu
  · intro r hr
    simp only [sleepStep] at hr ⊢
    exact hI.idResNext r hr
  · intro u hu
    simp only [sleepStep] at hu
    exact Phase.noConfusion hu
  · intro u hu
    simp only [sleepStep] at hu ⊢
    exact hI.idQueueNext u hu
  · simpa [sleepStep] using hI.timeGap
  · intro r hr
    simp only [sleepStep] at hr ⊢
    have := hI.timeLe r hr
    omega
  · intro h
    simp only [sleepStep] at h
    exact Phase.noConfusion h
  · intro _ r hr
    simp only [sleepStep] at hr ⊢
    have := hI.timeLe r hr
    omega
  · simp only [sleepStep]
    rw [hI.evCount, hp]
    simp [phaseOpen]
  · simpa [sleepStep] using hI.evBound
  · intro u hu
    simp only [sleepStep] at hu ⊢
    rcases hI.leftToDo u hu with h | h | h
    · exact Or.inl h
    · exact Or.inr (Or.inl h)
    · rw [hp] at h
      simp at h

theorem inv_step {a : Act ε α} {s s' : WovAPICaller ε α}
    (h : Step a s s') (hI : Inv s) : Inv s' := by
  cases h with
  | submit s o d => exact inv_submit o d hI
  | dequeue s t q hp hq => exact inv_dequeue hp hq hI
  | execTask s t hp => exact inv_finish hp hI
  | sleep s hp => exact inv_sleep hp hI

theorem inv_reachable {ε α : Type} {s : WovAPICaller ε α}
    (h : Reachable s) : Inv s := by
  have h2 : Relation.ReflTransGen (fun a b => ∃ l, Step l a b)
      (initState ε α) s := h
  clear h
  induction h2 with
  | refl => exact inv_init ε α
  | tail _ hstep ih =>
    obtain ⟨l, hl⟩ := hstep
    exact inv_step hl ih

/-- Termination measure for draining the queue with worker steps only:
each worker step strictly decreases it. -/
def phaseW : Phase ε α → Nat
  | Phase.idle => 0
  | Phase.running _ => 2
  | Phase.cooling => 1

def measureQ (s : WovAPICaller ε α) : Nat :=
  3 * s.queue.length + phaseW s.phase

/-- Progress: from any state satisfying the invariant, a finite number of
worker steps empties the queue and returns the worker to the
`queue.get` suspension point, without touching `submitted`. -/
theorem drain {ε α : Type} :
    ∀ (k : Nat) (s : WovAPICaller ε α), Inv s → measureQ s ≤ k →
    ∃ s', Relation.ReflTransGen (Step Act.work) s s' ∧
      s'.submitted = s.submitted ∧ s'.queue = [] ∧
      s'.phase = Phase.idle ∧ Inv s' := by
  intro k
  induction k with
  | zero =>
    intro s hI hm
    match hph : s.phase, hq : s.queue with
    | Phase.idle, [] =>
      exact ⟨s, Relation.ReflTransGen.refl, rfl, hq, hph, hI⟩
    | Phase.idle, t :: q =>
      rw [measureQ, hph, hq] at hm
      simp only [phaseW, List.length_cons] at hm
      omega
    | Phase.running t, _ =>
      rw [measureQ, hph] at hm
      simp only [phaseW] at hm
      omega
    | Phase.cooling, _ =>
      rw [measureQ, hph] at hm
      simp only [phaseW] at hm
      omega
  | succ k ih =>
    intro s hI hm
    match hph : s.phase, hq : s.queue with
    | Phase.idle, [] =>
      exact ⟨s, Relation.ReflTransGen.refl, rfl, hq, hph, hI⟩
    | Phase.idle, t :: q =>
      have hm2 : measureQ (dequeueStep s t q) ≤ k := by
        rw [measureQ, hph, hq] at hm
        simp only [measureQ, dequeueStep, phaseW, List.length_cons] at hm ⊢
        omega
      obtain ⟨s', h1, h2, h3, h4, h5⟩ :=
        ih (dequeueStep s t q) (inv_dequeue hph hq hI) hm2
      exact ⟨s', Relation.ReflTransGen.head (Step.dequeue s t q hph hq) h1,
        h2, h3, h4, h5⟩
    | Phase.running t, _ =>
      have hm2 : measureQ (finishStep s t) ≤ k := by
        rw [measureQ, hph] at hm
        simp only [measureQ, finishStep, phaseW] at hm ⊢
        omega
      obtain ⟨s', h1, h2, h3, h4, h5⟩ :=
        ih (finishStep s t) (inv_finish hph hI) hm2
      exact ⟨s', Relation.ReflTransGen.head (Step.execTask s t hph) h1,
        h2, h3, h4, h5⟩
    | Phase.cooling, _ =>
      have hm2 : measureQ (sleepStep s) ≤ k := by
        rw [measureQ, hph] at hm
        simp only [measureQ, sleepStep, phaseW] at hm ⊢
        omega
      obtain ⟨s', h1, h2, h3, h4, h5⟩ :=
        ih (sleepStep s) (inv_sleep hph hI) hm2
      exact ⟨s', Relation.ReflTransGen.head (Step.sleep s hph) h1,
        h2, h3, h4, h5⟩

/-- Tasks with equal future ids among the submitted tasks are equal
(future ids are handed out in submission order, one per task). -/
theorem submitted_id_inj {ε α : Type} {s : WovAPICaller ε α} (hI : Inv s) :
    ∀ t ∈ s.submitted, ∀ u ∈ s.submitted, t.id = u.id → t = u := by
  refine List.inj_on_of_nodup_map ?_
  rw [hI.subIds]
  exact List.nodup_range s.nextId

/-- C1: In every reachable state, tasks submitted via `add_to_queue`
carry future ids `0, 1, 2, …` in submission order; the completion
(resolution) history lists those ids in strictly increasing order, so
completions happen in submission order; and any two completion times —
every task's completion, whether it succeeded (`Except.ok`) or raised
(`Except.error`), is followed by the unconditional `asyncio.sleep(1)` —
are at least the 1-time-unit cooldown apart. -/
theorem process_queue_ordered_throttled {ε α : Type}
    (s : WovAPICaller ε α) (h : Reachable s) :
    s.submitted.map QTask.id = List.range s.nextId
    ∧ List.Pairwise (· < ·) (s.resolved.map Resolution.id)
    ∧ List.Pairwise (fun a b => a + 1 ≤ b) (s.resolved.map Resolution.time) :=
  ⟨(inv_reachable h).subIds, (inv_reachable h).idRes, (inv_reachable h).timeGap⟩

/-- C2: If the worker is executing a task `t` whose operation raises
(`t.outcome = Except.error e`) and another task `u` is queued behind it,
then the loop continues: by worker steps alone it reaches a state whose
resolution history has grown by exactly one entry — `t`'s own future,
resolved with the captured failure `e` — and in which the worker is
executing the next queued task `u`.  The exception never escapes the
loop (there is no failing transition) and no other future is touched. -/
theorem process_queue_survives_failing_task {ε α : Type}
    (s : WovAPICaller ε α) (t u : QTask ε α) (e : ε) (q : List (QTask ε α))
    (_hr : Reachable s) (hph : s.phase = Phase.running t)
    (he : t.outcome = Except.error e) (hq : s.queue = u :: q) :
    ∃ s', Relation.ReflTransGen (Step Act.work) s s'
      ∧ s'.resolved = s.resolved ++ [⟨t.id, s.time + t.duration, Except.error e⟩]
      ∧ s'.phase = Phase.running u := by
  refine ⟨dequeueStep (sleepStep (finishStep s t)) u q, ?_, ?_, rfl⟩
  · refine Relation.ReflTransGen.head (Step.execTask s t hph) ?_
    refine Relation.ReflTransGen.head (Step.sleep _ rfl) ?_
    exact Relation.ReflTransGen.single
      (Step.dequeue _ u q rfl (by simp only [sleepStep, finishStep]; exact hq))
  · simp [dequeueStep, sleepStep, finishStep, he]

/-- C3: In every reachable state, no future id occurs twice in the
resolution history (each `PendingResult` is resolved at most once); every
resolution carries the outcome of the unique submitted task that owns
that future (never a value of a different submission); and by worker
steps alone the system reaches a state in which every submitted task's
future has been resolved, with its own outcome (each future eventually
resolves). -/
theorem futures_resolve_exactly_once {ε α : Type}
    (s : WovAPICaller ε α) (h : Reachable s) :
    (s.resolved.map Resolution.id).Nodup
    ∧ (∀ r ∈ s.resolved, ∀ t ∈ s.submitted, t.id = r.id → t.outcome = r.value)
    ∧ ∃ s', Relation.ReflTransGen (Step Act.work) s s'
        ∧ ∀ t ∈ s.submitted, ∃ r ∈ s'.resolved,
            r.id = t.id ∧ r.value = t.outcome := by
  have hI := inv_reachable h
  refine ⟨?_, ?_, ?_⟩
  · exact hI.idRes.imp Nat.ne_of_lt
  · intro r hr t ht hid
    obtain ⟨v, hv, hvi, hvo⟩ := hI.resSub r hr
    have htv : t = v := submitted_id_inj hI t ht v hv (by rw [hid, hvi])
    rw [htv]
    exact hvo
  · obtain ⟨s', h1, h2, h3, h4, h5⟩ := drain (measureQ s) s hI (le_refl _)
    refine ⟨s', h1, ?_⟩
    intro t ht
    have ht' : t ∈ s'.submitted := h2 ▸ ht
    rcases h5.leftToDo t ht' with hres | hque | hrun
    · obtain ⟨r, hr, hid⟩ := hres
      obtain ⟨v, hv, hvi, hvo⟩ := h5.resSub r hr
      have htv : t = v := submitted_id_inj h5 t ht' v hv (by rw [hvi]; exact hid.symm)
      exact ⟨r, hr, hid, by rw [htv]; exact hvo.symm⟩
    · rw [h3] at hque
      exact absurd hque (List.not_mem_nil t)
    · rw [h4] at hrun
      exact Phase.noConfusion hrun

/-- C4: `add_to_queue` is a total function — it returns on every input
(the enqueue cannot block or fail since the `asyncio.Queue` is unbounded)
— which appends the new task at the tail of the queue and returns the
fresh future `s.nextId`: an id that differs from the future of every
task ever submitted before, whose resolution history is untouched by the
call, and which is absent from that history, i.e. the returned handle is
still pending.  The worker phase is also untouched (submitters never
execute tasks). -/
theorem add_to_queue_never_fails {ε α : Type}
    (s : WovAPICaller ε α) (o : Except ε α) (d : Nat) (h : Reachable s) :
    (add_to_queue s o d).1.queue = s.queue ++ [⟨s.nextId, o, d⟩]
    ∧ (add_to_queue s o d).2 = s.nextId
    ∧ (∀ r ∈ s.resolved, r.id ≠ (add_to_queue s o d).2)
    ∧ (∀ t ∈ s.submitted, t.id ≠ (add_to_queue s o d).2)
    ∧ (add_to_queue s o d).1.resolved = s.resolved
    ∧ (add_to_queue s o d).1.phase = s.phase := by
  have hI := inv_reachable h
  refine ⟨rfl, rfl, ?_, ?_, rfl, rfl⟩
  · intro r hr
    simp only [add_to_queue]
    exact Nat.ne_of_lt (hI.idResNext r hr)
  · intro t ht
    have hm : t.id ∈ List.range s.nextId :=
      hI.subIds ▸ List.mem_map_of_mem QTask.id ht
    simp only [add_to_queue]
    exact Nat.ne_of_lt (List.mem_range.mp hm)

/-- C5: In every reachable state, every prefix of the begin/end execution
history has between 0 and 1 executions open: the single worker never
begins executing a queued task's operation before the previously begun
execution has ended, so at most one submitted task is executing at any
point. -/
theorem at_most_one_task_executing {ε α : Type}
    (s : WovAPICaller ε α) (h : Reachable s) :
    ∀ n, 0 ≤ evOpen (s.events.take n) ∧ evOpen (s.events.take n) ≤ 1 :=
  (inv_reachable h).evBound

/-- C6: First, whenever the worker is suspended at `queue.get` with an
empty queue, no worker step at all is enabled — the loop performs no
processing and does not spin; only a submission can unblock it.  Second,
if no task is ever submitted, the system never leaves the initial state:
worker steps alone keep it exactly at `initState` (the queue stays idle
indefinitely, with no error transition). -/
theorem empty_queue_suspends (ε α : Type) :
    (∀ s : WovAPICaller ε α, Reachable s → s.phase = Phase.idle →
        s.queue = [] → ∀ s', ¬ Step Act.work s s')
    ∧ (∀ s : WovAPICaller ε α,
        Relation.ReflTransGen (Step Act.work) (initState ε α) s →
        s = initState ε α) := by
  have hblock : ∀ s : WovAPICaller ε α, s.phase = Phase.idle → s.queue = [] →
      ∀ s', ¬ Step Act.work s s' := by
    intro s hph hq s' hstep
    cases hstep with
    | dequeue _ t q hp hq2 =>
      rw [hq] at hq2
      exact List.noConfusion hq2
    | execTask _ t hp =>
      rw [hph] at hp
      exact Phase.noConfusion hp
    | sleep _ hp =>
      rw [hph] at hp
      exact Phase.noConfusion hp
  refine ⟨fun s _ hph hq => hblock s hph hq, ?_⟩
  intro s h
  induction h with
  | refl => rfl
  | tail _ h2 ih =>
    rw [ih] at h2
    exact absurd h2 (hblock _ rfl rfl _)

/-! Concrete run used by the witnesses: submit three tasks — `tA`
(returns 1), `tB` (raises "boom"), `tC` (returns 3) — then let the worker
process the first two. -/

def w0 : WovAPICaller String Nat := initState String Nat

def tA : QTask String Nat := ⟨0, Except.ok 1, 0⟩

def tB : QTask String Nat := ⟨1, Except.error "boom", 0⟩

def tC : QTask String Nat := ⟨2, Except.ok 3, 0⟩

def w1 : WovAPICaller String Nat := (add_to_queue w0 (Except.ok 1) 0).1

def w2 : WovAPICaller String Nat := (add_to_queue w1 (Except.error "boom") 0).1

def w3 : WovAPICaller String Nat := (add_to_queue w2 (Except.ok 3) 0).1

def w4 : WovAPICaller String Nat := dequeueStep w3 tA [tB, tC]

def w5 : WovAPICaller String Nat := finishStep w4 tA

def w6 : WovAPICaller String Nat := sleepStep w5

def w7 : WovAPICaller String Nat := dequeueStep w6 tB [tC]

def w8 : WovAPICaller String Nat := finishStep w7 tB

theorem reach_w3 : Reachable w3 := by
  refine Relation.ReflTransGen.head ⟨_, Step.submit w0 (Except.ok 1) 0⟩ ?_
  refine Relation.ReflTransGen.head ⟨_, Step.submit w1 (Except.error "boom") 0⟩ ?_
  exact Relation.ReflTransGen.single ⟨_, Step.submit w2 (Except.ok 3) 0⟩

theorem reach_w7 : Reachable w7 := by
  refine Relation.ReflTransGen.trans reach_w3 ?_
  refine Relation.ReflTransGen.head ⟨_, Step.dequeue w3 tA [tB, tC] rfl rfl⟩ ?_
  refine Relation.ReflTransGen.head ⟨_, Step.execTask w4 tA rfl⟩ ?_
  refine Relation.ReflTransGen.head ⟨_, Step.sleep w5 rfl⟩ ?_
  exact Relation.ReflTransGen.single ⟨_, Step.dequeue w6 tB [tC] rfl rfl⟩

theorem reach_w8 : Reachable w8 :=
  Relation.ReflTransGen.tail reach_w7 ⟨_, Step.execTask w7 tB rfl⟩

/-- Witness for C1: the ordering/throttling theorem applied at the
concrete reachable state `w8`, where two tasks have completed. -/
theorem process_queue_ordered_throttled_witness :
    w8.submitted.map QTask.id = List.range w8.nextId
    ∧ List.Pairwise (· < ·) (w8.resolved.map Resolution.id)
    ∧ List.Pairwise (fun a b => a + 1 ≤ b) (w8.resolved.map Resolution.time) :=
  process_queue_ordered_throttled w8 reach_w8

/-- Witness for C2: at `w7` the worker is executing the failing task `tB`
with `tC` queued behind it. -/
theorem process_queue_survives_failing_task_witness :
    ∃ s', Relation.ReflTransGen (Step Act.work) w7 s'
      ∧ s'.resolved = w7.resolved ++ [⟨tB.id, w7.time + tB.duration, Except.error "boom"⟩]
      ∧ s'.phase = Phase.running tC :=
  process_queue_survives_failing_task w7 tB tC "boom" [] reach_w7 rfl rfl rfl

/-- Witness for C3: exactly-once resolution applied at the concrete
reachable state `w8`. -/
theorem futures_resolve_exactly_once_witness :
    (w8.resolved.map Resolution.id).Nodup
    ∧ (∀ r ∈ w8.resolved, ∀ t ∈ w8.submitted, t.id = r.id → t.outcome = r.value)
    ∧ ∃ s', Relation.ReflTransGen (Step Act.work) w8 s'
        ∧ ∀ t ∈ w8.submitted, ∃ r ∈ s'.resolved,
            r.id = t.id ∧ r.value = t.outcome :=
  futures_resolve_exactly_once w8 reach_w8

/-- Witness for C4: submitting a fourth task at the concrete reachable
state `w8`. -/
theorem add_to_queue_never_fails_witness :
    (add_to_queue w8 (Except.ok 9) 2).1.queue = w8.queue ++ [⟨w8.nextId, Except.ok 9, 2⟩]
    ∧ (add_to_queue w8 (Except.ok 9) 2).2 = w8.nextId
    ∧ (∀ r ∈ w8.resolved, r.id ≠ (add_to_queue w8 (Except.ok 9) 2).2)
    ∧ (∀ t ∈ w8.submitted, t.id ≠ (add_to_queue w8 (Except.ok 9) 2).2)
    ∧ (add_to_queue w8 (Except.ok 9) 2).1.resolved = w8.resolved
    ∧ (add_to_queue w8 (Except.ok 9) 2).1.phase = w8.phase :=
  add_to_queue_never_fails w8 (Except.ok 9) 2 reach_w8

/-- Witness for C5: the single-execution bound at `w7`, instantiated at
the event-history prefix of length 3 (begin tA, end tA, begin tB). -/
theorem at_most_one_task_executing_witness :
    0 ≤ evOpen (w7.events.take 3) ∧ evOpen (w7.events.take 3) ≤ 1 :=
  at_most_one_task_executing w7 reach_w7 3

/-- Witness for C6: at the initial state the worker has no enabled step,
and the no-submission run stays at the initial state. -/
theorem empty_queue_suspends_witness :
    ¬ Step Act.work (initState String Nat) (sleepStep (initState String Nat))
    ∧ initState String Nat = initState String Nat :=
  ⟨(empty_queue_suspends String Nat).1 (initState String Nat)
      Relation.ReflTransGen.refl rfl rfl (sleepStep (initState String Nat)),
   (empty_queue_suspends String Nat).2 (initState String Nat)
      Relation.ReflTransGen.refl⟩

/-! Embedding of the HTTP wrapper methods.  Each `WovApiCall` classmethod
and `LichessApiCall.get_user_performance` performs one request and then
branches on the response status, so it is embedded as a pure function of
the response it received (status code plus the payload that
`response.json()` parses to): on status 200 it returns the parsed
payload, otherwise it hands one error message to `logger.error` and
returns `None`.  The returned pair is (result, messages logged). -/

/-- An HTTP response as seen by a wrapper: the status code and the
payload obtained by parsing the body (`response.json()`). -/
structure HttpResponse (β : Type) where
  status : Nat
  json : β

/-- Substring containment: `sub` occurs contiguously in `msg` (stated on
the underlying character lists). -/
def containsStr (msg sub : String) : Prop :=
  ∃ a b : List Char, msg.data = a ++ (sub.data ++ b)

theorem data_append (a b : String) : (a ++ b).data = a.data ++ b.data := rfl

theorem containsStr_mid (p s q : String) : containsStr (p ++ s ++ q) s :=
  ⟨p.data, q.data, by simp [data_append]⟩

theorem containsStr_tail (p s : String) : containsStr (p ++ s) s :=
  ⟨p.data, [], by simp [data_append]⟩

/-- Embedding of `WovApiCall.get_user_by_id`: status 200 returns the parsed body,
otherwise logs the f-string with the status code and the user id and
returns `None`. -/
def get_user_by_id (resp : HttpResponse β) (user_id : Nat) :
    Option β × List String :=
  if resp.status = 200 then (some resp.json, [])
  else (none,
    ["Wov User API call failed with status code " ++ toString resp.status ++
      ". User ID: " ++ toString user_id])

/-- Embedding of `WovApiCall.get_user_by_name`. -/
def get_user_by_name (resp : HttpResponse β) (username : String) :
    Option β × List String :=
  if resp.status = 200 then (some resp.json, [])
  else (none,
    ["Wov User API call failed with status code " ++ toString resp.status ++
      ". Username: " ++ username])

/-- Embedding of `WovApiCall.get_clan_by_id`. -/
def get_clan_by_id (resp : HttpResponse β) (clan_id : Nat) :
    Option β × List String :=
  if resp.status = 200 then (some resp.json, [])
  else (none,
    ["Wov Clan API call failed with status code " ++ toString resp.status ++
      ". Clan ID: " ++ toString clan_id])

/-- Embedding of `WovApiCall.get_clan_by_name`. -/
def get_clan_by_name (resp : HttpResponse β) (clan_name : String) :
    Option β × List String :=
  if resp.status = 200 then (some resp.json, [])
  else (none,
    ["Wov Clan API call failed with status code " ++ toString resp.status ++
      ". Clan name: " ++ clan_name])

/-- Embedding of `WovApiCall.get_clan_members`. -/
def get_clan_members (resp : HttpResponse β) (clan_id : Nat) :
    Option β × List String :=
  if resp.status = 200 then (some resp.json, [])
  else (none,
    ["Wov Clan Members API call failed with status code " ++ toString resp.status ++
      ". Clan ID: " ++ toString clan_id])

/-- Embedding of `WovApiCall.get_shop`.  The source passes the status code lazily,
`logger.error("Wov Shop API call failed with status code %s.", response.status)`;
the `Logger` collaborator (defined outside this module) applies standard
printf-style substitution, so the delivered message is the format string
with the status code substituted.  This method takes no identifying
parameter, so its message carries only the status code. -/
def get_shop (resp : HttpResponse β) : Option β × List String :=
  if resp.status = 200 then (some resp.json, [])
  else (none,
    ["Wov Shop API call failed with status code " ++ toString resp.status ++ "."])

/-- Embedding of `LichessApiCall.get_user_performance` (synchronous `requests.get`,
branching on `response.status_code`). -/
def get_user_performance (resp : HttpResponse β) (username _perf_type : String) :
    Option β × List String :=
  if resp.status = 200 then (some resp.json, [])
  else (none,
    ["Lichess User Performance API call failed with status code " ++
      toString resp.status ++ ". Username: " ++ username])

/-- C7: Every wrapper call returns the parsed payload with nothing logged
when the response status is 200, and on any non-200 status returns `None`
after logging exactly one message that contains the status code and (for
every method that takes one) the identifying key. -/
theorem api_call_status_contract {β : Type} (resp : HttpResponse β)
    (user_id clan_id : Nat) (username clan_name perf_type : String) :
    (resp.status = 200 →
      get_user_by_id resp user_id = (some resp.json, [])
      ∧ get_user_by_name resp username = (some resp.json, [])
      ∧ get_clan_by_id resp clan_id = (some resp.json, [])
      ∧ get_clan_by_name resp clan_name = (some resp.json, [])
      ∧ get_clan_members resp clan_id = (some resp.json, [])
      ∧ get_shop resp = (some resp.json, [])
      ∧ get_user_performance resp username perf_type = (some resp.json, []))
    ∧ (resp.status ≠ 200 →
      ((get_user_by_id resp user_id).1 = none
        ∧ ∃ m, (get_user_by_id resp user_id).2 = [m]
            ∧ containsStr m (toString resp.status) ∧ containsStr m (toString user_id))
      ∧ ((get_user_by_name resp username).1 = none
        ∧ ∃ m, (get_user_by_name resp username).2 = [m]
            ∧ containsStr m (toString resp.status) ∧ containsStr m username)
      ∧ ((get_clan_by_id resp clan_id).1 = none
        ∧ ∃ m, (get_clan_by_id resp clan_id).2 = [m]
            ∧ containsStr m (toString resp.status) ∧ containsStr m (toString clan_id))
      ∧ ((get_clan_by_name resp clan_name).1 = none
        ∧ ∃ m, (get_clan_by_name resp clan_name).2 = [m]
            ∧ containsStr m (toString resp.status) ∧ containsStr m clan_name)
      ∧ ((get_clan_members resp clan_id).1 = none
        ∧ ∃ m, (get_clan_members resp clan_id).2 = [m]
            ∧ containsStr m (toString resp.status) ∧ containsStr m (toString clan_id))
      ∧ ((get_shop resp).1 = none
        ∧ ∃ m, (get_shop resp).2 = [m] ∧ containsStr m (toString resp.status))
      ∧ ((get_user_performance resp username perf_type).1 = none
        ∧ ∃ m, (get_user_performance resp username perf_type).2 = [m]
            ∧ containsStr m (toString resp.status) ∧ containsStr m username)) := by
  constructor
  · intro h
    simp [get_user_by_id, get_user_by_name, get_clan_by_id, get_clan_by_name,
      get_clan_members, get_shop, get_user_performance, h]
  · intro h
    refine ⟨?_, ?_, ?_, ?_, ?_, ?_, ?_⟩
    · simp only [get_user_by_id, if_neg h]
      refine ⟨trivial, _, rfl, ?_, ?_⟩
      · rw [String.append_assoc]
        exact containsStr_mid _ _ _
      · exact containsStr_tail _ _
    · simp only [get_user_by_name, if_neg h]
      refine ⟨trivial, _, rfl, ?_, ?_⟩
      · rw [String.append_assoc]
        exact containsStr_mid _ _ _
      · exact containsStr_tail _ _
    · simp only [get_clan_by_id, if_neg h]
      refine ⟨trivial, _, rfl, ?_, ?_⟩
      · rw [String.append_assoc]
        exact containsStr_mid _ _ _
      · exact containsStr_tail _ _
    · simp only [get_clan_by_name, if_neg h]
      refine ⟨trivial, _, rfl, ?_, ?_⟩
      · rw [String.append_assoc]
        exact containsStr_mid _ _ _
      · exact containsStr_tail _ _
    · simp only [get_clan_members, if_neg h]
      refine ⟨trivial, _, rfl, ?_, ?_⟩
      · rw [String.append_assoc]
        exact containsStr_mid _ _ _
      · exact containsStr_tail _ _
    · simp only [get_shop, if_neg h]
      exact ⟨trivial, _, rfl, containsStr_mid _ _ _⟩
    · simp only [get_user_performance, if_neg h]
      refine ⟨trivial, _, rfl, ?_, ?_⟩
      · rw [String.append_assoc]
        exact containsStr_mid _ _ _
      · exact containsStr_tail _ _

/-- Witness for C7: a 200 response returns the payload; a 404 response
returns `None` and one log message containing "404" and the user id. -/
theorem api_call_status_contract_witness :
    get_user_by_id (⟨200, 7⟩ : HttpResponse Nat) 5 = (some 7, [])
    ∧ ((get_user_by_id (⟨404, 7⟩ : HttpResponse Nat) 5).1 = none
        ∧ ∃ m, (get_user_by_id (⟨404, 7⟩ : HttpResponse Nat) 5).2 = [m]
            ∧ containsStr m (toString (404 : Nat))
            ∧ containsStr m (toString (5 : Nat))) :=
  ⟨((api_call_status_contract ⟨200, 7⟩ 5 3 "u" "c" "p").1 rfl).1,
   ((api_call_status_contract ⟨404, 7⟩ 5 3 "u" "c" "p").2 (by decide)).1⟩

/-! Embedding of `LichessApiCall.export_by_player`.  The generator body
sets the shared `Accept` header (modelled by `exportHeaderSetup` below),
performs one `regulated_request` (an external collaborator, represented
by its outcome: the response text's lines on success, the raised
exception's text on failure), iterates over `resp.text.splitlines()`
yielding `json.loads(line)` for each non-blank line, and catches any
exception from the request or the parsing, logging one message and
returning.  `json.loads` is represented by a parsing function `loads`
that either produces a parsed object or raises. -/

/-- Truthiness of `line.strip()` in the generator's guard: a stripped
line is non-empty exactly when the line has a non-whitespace
character. -/
def stripNonempty (line : String) : Bool :=
  line.data.any (fun c => !c.isWhitespace)

/-- The `for line in resp.text.splitlines(): if line.strip(): yield
json.loads(line)` loop: returns the objects yielded in order, and the
exception text if some parsed line raised (parsing stops there; the
surrounding `except` block receives it). -/
def exportLines (loads : String → Except String J) :
    List String → List J × Option String
  | [] => ([], none)
  | l :: ls =>
    if stripNonempty l then
      match loads l with
      | Except.ok j =>
        (j :: (exportLines loads ls).1, (exportLines loads ls).2)
      | Except.error e => ([], some e)
    else exportLines loads ls

/-- The message of
`logger.error(f"Lichess Export By Player API call failed. Username: {username}. Error: {e}")`. -/
def exportErrMsg (username e : String) : String :=
  "Lichess Export By Player API call failed. Username: " ++ username ++
    ". Error: " ++ e

/-- Embedding of `LichessApiCall.export_by_player`, observed through the items it
yields and the messages it logs.  `req` is the outcome of
`regulated_request`: the lines of `resp.text` on success, the raised
exception's text on failure.  Every failure — of the request or of
`json.loads` on some line — is caught by the `try`/`except`, logged, and
ends the generator normally (`return None`); nothing propagates to the
caller. -/
def export_by_player (loads : String → Except String J)
    (req : Except String (List String)) (username : String) :
    List J × List String :=
  match req with
  | Except.error e => ([], [exportErrMsg username e])
  | Except.ok lines =>
    match exportLines loads lines with
    | (js, none) => (js, [])
    | (js, some e) => (js, [exportErrMsg username e])

theorem exportLines_all_ok {J : Type} (loads : String → Except String J)
    (p : String → J) :
    ∀ lines : List String,
      (∀ l ∈ lines, stripNonempty l = true → loads l = Except.ok (p l)) →
      exportLines loads lines = ((lines.filter stripNonempty).map p, none) := by
  intro lines
  induction lines with
  | nil => intro _; rfl
  | cons l ls ih =>
    intro h
    have ih2 := ih (fun x hx hbx => h x (List.mem_cons_of_mem l hx) hbx)
    by_cases hb : stripNonempty l = true
    · have hl := h l (List.mem_cons_self l ls) hb
      simp only [exportLines, hb, if_true, hl, ih2, List.filter_cons,
        List.map_cons]
    · simp only [exportLines, hb, if_false, ih2, List.filter_cons,
        Bool.false_eq_true]

/-- C8: `export_by_player` never lets a failure escape as an exception —
it is a total function into (yielded items, logged messages).  When
`regulated_request` raises, the caller gets no items and exactly the one
logged message, which contains the username and the error text; when
`json.loads` raises on some line, the items yielded up to that point are
followed by the same single log line; in every case at most one message
is logged and the generator ends normally. -/
theorem export_by_player_captures_failures {J : Type}
    (loads : String → Except String J) (username e : String)
    (lines : List String) :
    (export_by_player loads (Except.error e) username
        = ([], [exportErrMsg username e]))
    ∧ ((exportLines loads lines).2 = some e →
        export_by_player loads (Except.ok lines) username
          = ((exportLines loads lines).1, [exportErrMsg username e]))
    ∧ (∀ req, (export_by_player loads req username).2.length ≤ 1)
    ∧ containsStr (exportErrMsg username e) username
    ∧ containsStr (exportErrMsg username e) e := by
  refine ⟨rfl, ?_, ?_, ?_, ?_⟩
  · intro h
    rcases hE : exportLines loads lines with ⟨js, err⟩
    rw [hE] at h
    simp only at h
    subst h
    simp only [export_by_player, hE]
  · intro req
    rcases req with e2 | lines2
    · simp [export_by_player]
    · rcases hE : exportLines loads lines2 with ⟨js, err⟩
      rcases err with _ | e2 <;> simp [export_by_player, hE]
  · rw [exportErrMsg, String.append_assoc]
    exact containsStr_mid _ _ _
  · rw [exportErrMsg]
    exact containsStr_tail _ _

/-- Parsing behaviour used by the C8 witness: the line "bad" raises,
every other line parses to itself. -/
def wLoads (l : String) : Except String String :=
  if l = "bad" then Except.error "boom" else Except.ok l

/-- Witness for C8: with the request succeeding but `json.loads` raising
on the second line, the helper returns the first parsed item plus the
single log line instead of propagating the exception. -/
theorem export_by_player_captures_failures_witness :
    export_by_player wLoads (Except.ok ["good", "bad"]) "alice"
      = ((exportLines wLoads ["good", "bad"]).1, [exportErrMsg "alice" "boom"]) :=
  (export_by_player_captures_failures wLoads "alice" "boom"
    ["good", "bad"]).2.1 (by decide)

/-- C10: on a successful request whose lines all parse, `export_by_player`
yields exactly one parsed object per line whose content is not only
whitespace, in the order the lines appear, and yields nothing for blank
or whitespace-only lines — and logs nothing. -/
theorem export_by_player_yields_nonblank_lines {J : Type}
    (loads : String → Except String J) (p : String → J) (username : String)
    (lines : List String)
    (h : ∀ l ∈ lines, stripNonempty l = true → loads l = Except.ok (p l)) :
    export_by_player loads (Except.ok lines) username
      = ((lines.filter stripNonempty).map p, []) := by
  simp only [export_by_player, exportLines_all_ok loads p lines h]

/-- Witness for C10: four lines, two of them blank or whitespace-only,
yield exactly the two non-blank lines' parses in order. -/
theorem export_by_player_yields_nonblank_lines_witness :
    export_by_player (fun l : String => Except.ok l)
      (Except.ok ["alpha", " ", "", "beta"]) "alice" = (["alpha", "beta"], []) :=
  (export_by_player_yields_nonblank_lines (fun l : String => Except.ok l) id
    "alice" ["alpha", " ", "", "beta"] (fun _ _ _ => rfl)).trans (by decide)

/-! Embedding of the `LichessApiCall` class-level state for the header
frame effect.  A Python `dict` with string keys is represented as an
association list in insertion order; `d[k] = v` replaces the value of an
existing key in place or appends a new binding at the end, which is
`dictInsert`; `d[k]` lookup is `dictGet`. -/

/-- The class attributes of `LichessApiCall`: `lichess_url` and the
shared `headers` dictionary. -/
structure LichessApiCall where
  lichess_url : String
  headers : List (String × String)

/-- Python `d[k] = v` on a string-keyed dict in insertion order. -/
def dictInsert : List (String × String) → String → String → List (String × String)
  | [], k, v => [(k, v)]
  | p :: d, k, v => if p.1 = k then (k, v) :: d else p :: dictInsert d k v

/-- Python `d.get(k)`. -/
def dictGet : List (String × String) → String → Option String
  | [], _ => none
  | p :: d, k => if p.1 = k then some p.2 else dictGet d k

theorem dictGet_insert_self (d : List (String × String)) (k v : String) :
    dictGet (dictInsert d k v) k = some v := by
  induction d with
  | nil => simp [dictInsert, dictGet]
  | cons p d ih =>
    by_cases h : p.1 = k
    · simp [dictInsert, h, dictGet]
    · simp [dictInsert, h, dictGet, ih]

theorem dictGet_insert_ne (d : List (String × String)) (k v k2 : String)
    (h : k2 ≠ k) : dictGet (dictInsert d k v) k2 = dictGet d k2 := by
  have hk : ¬ k = k2 := fun hh => h hh.symm
  induction d with
  | nil => simp [dictInsert, dictGet, hk]
  | cons p d ih =>
    by_cases hp : p.1 = k
    · simp only [dictInsert, hp, if_true, dictGet]
      rw [if_neg hk, if_neg hk]
    · simp only [dictInsert, hp, if_false, dictGet, ih]

/-- Embedding of lines 226–227 of `export_by_player`:
`headers = cls.headers` binds the class attribute by reference (Python
assignment does not copy), so `headers["Accept"] = "application/x-ndjson"`
mutates the class dictionary itself.  Returns the class state after this
prefix of the call, together with the dictionary passed to
`regulated_request` — which is the very same (shared) dictionary. -/
def exportHeaderSetup (s : LichessApiCall) :
    LichessApiCall × List (String × String) :=
  let h := dictInsert s.headers "Accept" "application/x-ndjson"
  ({ s with headers := h }, h)

/-- Headers a subsequent `get_user_performance` call sends: it reads
`cls.headers` at call time. -/
def get_user_performance_headers (s : LichessApiCall) :
    List (String × String) := s.headers

/-- C9: running the header-setup prefix of `export_by_player` makes the
request headers and the class attribute one and the same dictionary,
inserts the Accept/ndjson binding into it — so any later call reading
`LichessApiCall.headers`, such as `get_user_performance`, also carries
that header — leaves every other key's binding unchanged, and leaves the
other class attribute `lichess_url` untouched. -/
theorem export_by_player_mutates_shared_headers (s : LichessApiCall)
    (k : String) (hk : k ≠ "Accept") :
    (exportHeaderSetup s).2 = (exportHeaderSetup s).1.headers
    ∧ (exportHeaderSetup s).1.lichess_url = s.lichess_url
    ∧ dictGet (exportHeaderSetup s).1.headers "Accept"
        = some "application/x-ndjson"
    ∧ dictGet (get_user_performance_headers (exportHeaderSetup s).1) "Accept"
        = some "application/x-ndjson"
    ∧ dictGet (exportHeaderSetup s).1.headers k = dictGet s.headers k :=
  ⟨rfl, rfl, dictGet_insert_self s.headers "Accept" "application/x-ndjson",
   dictGet_insert_self s.headers "Accept" "application/x-ndjson",
   dictGet_insert_ne s.headers "Accept" "application/x-ndjson" k hk⟩

/-- Witness for C9: starting from the class state built at import time
(authorization header only), after the setup the shared dictionary
carries both the untouched authorization binding and the inserted
Accept binding. -/
theorem export_by_player_mutates_shared_headers_witness :
    (exportHeaderSetup ⟨"https://lichess.org/api/", [("Authorization", "Bearer tok")]⟩).2
      = (exportHeaderSetup ⟨"https://lichess.org/api/", [("Authorization", "Bearer tok")]⟩).1.headers
    ∧ (exportHeaderSetup ⟨"https://lichess.org/api/", [("Authorization", "Bearer tok")]⟩).1.lichess_url
      = "https://lichess.org/api/"
    ∧ dictGet (exportHeaderSetup ⟨"https://lichess.org/api/", [("Authorization", "Bearer tok")]⟩).1.headers "Accept"
      = some "application/x-ndjson"
    ∧ dictGet (get_user_performance_headers (exportHeaderSetup ⟨"https://lichess.org/api/", [("Authorization", "Bearer tok")]⟩).1) "Accept"
      = some "application/x-ndjson"
    ∧ dictGet (exportHeaderSetup ⟨"https://lichess.org/api/", [("Authorization", "Bearer tok")]⟩).1.headers "Authorization"
      = dictGet [("Authorization", "Bearer tok")] "Authorization" :=
  export_by_player_mutates_shared_headers
    ⟨"https://lichess.org/api/", [("Authorization", "Bearer tok")]⟩
    "Authorization" (by decide)

end MifBot
